import Mathlib

/-!
Verification of the zvec-mcp ingestion core: the chunker (`_chunk_text` in
`knowledge.py`), the content addressers (`_make_chunk_id`, `_memory_id`),
the memory store operations (`remember`, `recall`, `forget`,
`forget_category` in `memory.py`), and the tool boundary of
`knowledge_ingest_file` / `memory_forget` in `server.py`.

Text is embedded as `List Char`, matching Python's per-character indexing
of `str`.  The `while` loop of `_chunk_text` is embedded with explicit
fuel: `chunk_loop fuel … = none` means the loop has not finished within
`fuel` iterations; a run of the Python loop terminates with result `cs`
exactly when some fuel yields `some cs`.  The external zvec engine and
the filesystem are collaborators and are modelled at their interface
boundary (upsert = overwrite by id, query = equality-filter then rank
then take topk, delete = remove by id reporting existence).
-/

namespace ZvecMcp

/-! ### Python `str.rfind` -/

/-- Predicate `matchesAt text sub i` holds when `sub` occurs in `text` starting at
index `i` (entirely inside `text`), i.e. `text[i : i+len(sub)] == sub`. -/
def matchesAt (text sub : List Char) (i : Nat) : Bool :=
  (text.drop i).take sub.length == sub

/-- Scan candidate start positions `b-1, b-2, …, lo` downward and return
the first (hence largest) position where `sub` matches. -/
def rfindAux (text sub : List Char) (lo : Nat) : Nat → Option Nat
  | 0 => none
  | b + 1 =>
    if lo ≤ b && matchesAt text sub b then some b
    else rfindAux text sub lo b

/-- Python `text.rfind(sub, lo, hi)`: the largest `i` with `lo ≤ i`,
`i + len(sub) ≤ hi` and `text[i : i+len(sub)] == sub`; `none` models the
`-1` of Python.  (Candidates are exactly `i < hi + 1 - len(sub)`.) -/
def rfind (text sub : List Char) (lo hi : Nat) : Option Nat :=
  rfindAux text sub lo (hi + 1 - sub.length)

/-! ### `_chunk_text` (knowledge.py lines 28-62) -/

/-- The sentence separators tried in order:
`".\n"`, `"\n\n"`, `"\n"`, `". "`, `"! "`, `"? "`. -/
def seps : List (List Char) :=
  [['.', '\n'], ['\n', '\n'], ['\n'], ['.', ' '], ['!', ' '], ['?', ' ']]

/-- The `for sep in …` loop of `_chunk_text`: the first separator with an
occurrence in `[lo, hi)` yields `idx + len(sep)` (the Python `best`). -/
def findSep (text : List Char) (lo hi : Nat) : List (List Char) → Option Nat
  | [] => none
  | sep :: rest =>
    match rfind text sep lo hi with
    | some idx => some (idx + sep.length)
    | none => findSep text lo hi rest

/-- The cut position `best` chosen inside one window of the loop body of
`_chunk_text`: separator search over `[start + size/2, start + size)`,
falling back to the last space, then to `start + size`. -/
def findBest (text : List Char) (size start : Nat) : Nat :=
  match findSep text (start + size / 2) (start + size) seps with
  | some best => best
  | none =>
    match rfind text [' '] (start + size / 2) (start + size) with
    | some idx => idx + 1
    | none => start + size

/-- The `while start < len(text)` loop of `_chunk_text`, with fuel.  With
`best := findBest text size start`, the emitted chunk is
`text[start:best]` and the next start is `(best - overlap).toNat`, which
is exactly Python's `start = best - overlap; if start < 0: start = 0`. -/
def chunk_loop (text : List Char) (size overlap : Nat) : Nat → Nat → Option (List (List Char))
  | 0, _ => none
  | fuel + 1, start =>
    if start < text.length then
      if text.length ≤ start + size then
        some [text.drop start]
      else
        match chunk_loop text size overlap fuel
            (((findBest text size start : Int) - (overlap : Int)).toNat) with
        | some rest => some ((text.drop start).take (findBest text size start - start) :: rest)
        | none => none
    else
      some []

/-- Function `_chunk_text(text, size, overlap)`, with fuel for the loop.  `none`
means the loop has not finished within `fuel` iterations. -/
def chunk_text (fuel : Nat) (text : List Char) (size overlap : Nat) : Option (List (List Char)) :=
  if text.length ≤ size then some [text]
  else chunk_loop text size overlap fuel 0

/-- Concatenation of all chunks after dropping the declared
`overlap`-length prefix of each. -/
def dropOverlaps (overlap : Nat) (cs : List (List Char)) : List Char :=
  (cs.map (List.drop overlap)).flatten

/-- Concatenating the chunks while dropping the declared `overlap`-length
prefix of every chunk after the first. -/
def reconstruct (overlap : Nat) : List (List Char) → List Char
  | [] => []
  | c :: rest => c ++ dropOverlaps overlap rest

example : chunk_text 3 "ab".toList 1 0 = some [['a'], ['b']] := by decide

example : chunk_text 0 "Hello. World.".toList 100 10 = some ["Hello. World.".toList] := by
  decide

/-! ### Correctness of `rfind` -/

theorem rfindAux_some {text sub : List Char} {lo : Nat} :
    ∀ {b i : Nat}, rfindAux text sub lo b = some i →
      lo ≤ i ∧ i < b ∧ matchesAt text sub i = true ∧
        ∀ j, lo ≤ j → j < b → matchesAt text sub j = true → j ≤ i
  | 0, i, h => by simp [rfindAux] at h
  | b + 1, i, h => by
    rw [rfindAux] at h
    split at h
    case isTrue hc =>
      simp only [Bool.and_eq_true, decide_eq_true_eq] at hc
      cases h
      exact ⟨hc.1, Nat.lt_succ_self _, hc.2, fun j _ hjb _ => Nat.lt_succ_iff.mp hjb⟩
    case isFalse hc =>
      obtain ⟨h1, h2, h3, h4⟩ := rfindAux_some h
      refine ⟨h1, Nat.lt_succ_of_lt h2, h3, fun j hj hjb hm => ?_⟩
      rcases Nat.lt_succ_iff_lt_or_eq.mp hjb with hlt | rfl
      · exact h4 j hj hlt hm
      · simp only [Bool.and_eq_true, decide_eq_true_eq, not_and] at hc
        exact absurd hm (hc hj)

theorem rfindAux_none {text sub : List Char} {lo : Nat} :
    ∀ {b : Nat}, rfindAux text sub lo b = none →
      ∀ j, lo ≤ j → j < b → matchesAt text sub j = false
  | 0, _, j, _, hjb => by omega
  | b + 1, h, j, hj, hjb => by
    rw [rfindAux] at h
    split at h
    case isTrue hc => exact Option.noConfusion h
    case isFalse hc =>
      rcases Nat.lt_succ_iff_lt_or_eq.mp hjb with hlt | rfl
      · exact rfindAux_none h j hj hlt
      · simp only [Bool.and_eq_true, decide_eq_true_eq, not_and] at hc
        exact Bool.eq_false_iff.mpr (hc hj)

theorem rfind_some {text sub : List Char} {lo hi i : Nat}
    (h : rfind text sub lo hi = some i) :
    lo ≤ i ∧ i + sub.length ≤ hi ∧ matchesAt text sub i = true ∧
      ∀ j, lo ≤ j → j + sub.length ≤ hi → matchesAt text sub j = true → j ≤ i := by
  obtain ⟨h1, h2, h3, h4⟩ := rfindAux_some h
  exact ⟨h1, by omega, h3, fun j hj hjhi hm => h4 j hj (by omega) hm⟩

theorem rfind_none {text sub : List Char} {lo hi : Nat}
    (h : rfind text sub lo hi = none) :
    ∀ j, lo ≤ j → j + sub.length ≤ hi → matchesAt text sub j = false :=
  fun j hj hjhi => rfindAux_none h j hj (by omega)

/-! ### Progress of the chunking loop -/

theorem findSep_lb {text : List Char} {lo hi b : Nat} :
    ∀ {ms : List (List Char)}, (∀ m ∈ ms, 1 ≤ m.length) →
      findSep text lo hi ms = some b → lo + 1 ≤ b
  | [], _, h => by simp [findSep] at h
  | m :: ms, hms, h => by
    rw [findSep] at h
    cases hr : rfind text m lo hi with
    | some idx =>
      rw [hr] at h
      cases h
      have h1 := (rfind_some hr).1
      have hm := hms m (List.mem_cons_self ..)
      omega
    | none =>
      rw [hr] at h
      exact findSep_lb (fun x hx => hms x (List.mem_cons_of_mem _ hx)) h

/-- Every cut position lies strictly past the midpoint of its window:
`start + size/2 + 1 ≤ findBest text size start` (for positive `size`). -/
theorem findBest_lb (text : List Char) (size start : Nat) (hsz : 1 ≤ size) :
    start + size / 2 + 1 ≤ findBest text size start := by
  rw [findBest]
  cases hf : findSep text (start + size / 2) (start + size) seps with
  | some b => exact findSep_lb (by decide) hf
  | none =>
    dsimp only
    cases hr : rfind text [' '] (start + size / 2) (start + size) with
    | some idx =>
      dsimp only
      have h1 := (rfind_some hr).1
      omega
    | none =>
      dsimp only
      have : size / 2 < size := Nat.div_lt_self (by omega) (by omega)
      omega

/-- If a window's cut position leads the loop straight back to the same
`start`, the loop never finishes, whatever the fuel. -/
theorem chunk_loop_stuck {text : List Char} {size overlap start : Nat}
    (h2 : start + size < text.length)
    (hfix : ((findBest text size start : Int) - (overlap : Int)).toNat = start) :
    ∀ fuel, chunk_loop text size overlap fuel start = none := by
  intro fuel
  induction fuel with
  | zero => rfl
  | succ n ih =>
    rw [chunk_loop, if_pos (by omega), if_neg (by omega)]
    rw [hfix, ih]

/-- Termination with full coverage: when `overlap ≤ size / 2`, the loop
finishes within `text.length - start` iterations, the chunks after the
`overlap`-prefix drop concatenate to the remaining text, and at least one
chunk is produced whenever text remains. -/
theorem chunk_loop_total {size overlap : Nat} (hsz : 1 ≤ size) (hov : overlap ≤ size / 2) :
    ∀ (fuel : Nat) (text : List Char) (start : Nat), text.length ≤ start + fuel →
      ∃ cs, chunk_loop text size overlap (fuel + 1) start = some cs ∧
        reconstruct overlap cs = text.drop start ∧
        dropOverlaps overlap cs = text.drop (start + overlap) ∧
        (start < text.length → cs ≠ []) := by
  intro fuel
  induction fuel with
  | zero =>
    intro text start hle
    have h1 : ¬ start < text.length := by omega
    refine ⟨[], ?_, ?_, ?_, fun hc => absurd hc h1⟩
    · rw [chunk_loop, if_neg h1]
    · show ([] : List Char) = text.drop start
      rw [List.drop_eq_nil_of_le (by omega)]
    · show ([] : List Char) = text.drop (start + overlap)
      rw [List.drop_eq_nil_of_le (by omega)]
  | succ n ih =>
    intro text start hlt
    by_cases h1 : start < text.length
    · by_cases h2 : text.length ≤ start + size
      · refine ⟨[text.drop start], ?_, ?_, ?_, fun _ => by simp⟩
        · rw [chunk_loop, if_pos h1, if_pos h2]
        · simp [reconstruct, dropOverlaps]
        · simp [dropOverlaps, List.drop_drop]
      · have hlb : start + size / 2 + 1 ≤ findBest text size start :=
          findBest_lb text size start hsz
        have hse : ((findBest text size start : Int) - (overlap : Int)).toNat =
            findBest text size start - overlap := Int.toNat_sub _ _
        obtain ⟨rest, hres, hrec, hdrop, -⟩ :=
          ih text (findBest text size start - overlap) (by omega)
        refine ⟨(text.drop start).take (findBest text size start - start) :: rest,
          ?_, ?_, ?_, fun _ => by simp⟩
        · rw [chunk_loop, if_pos h1, if_neg h2, hse, hres]
        · show (text.drop start).take (findBest text size start - start) ++
              dropOverlaps overlap rest = text.drop start
          rw [hdrop]
          have hb : findBest text size start - overlap + overlap = findBest text size start := by
            omega
          rw [hb]
          have hd : text.drop (findBest text size start) =
              (text.drop start).drop (findBest text size start - start) := by
            rw [List.drop_drop]
            congr 1
            omega
          rw [hd, List.take_append_drop]
        · show List.drop overlap ((text.drop start).take (findBest text size start - start)) ++
              dropOverlaps overlap rest = text.drop (start + overlap)
          rw [hdrop, List.drop_take, List.drop_drop]
          have hb : findBest text size start - overlap + overlap = findBest text size start := by
            omega
          rw [hb]
          have hd : text.drop (findBest text size start) =
              (text.drop (start + overlap)).drop (findBest text size start - start - overlap) := by
            rw [List.drop_drop]
            congr 1
            omega
          rw [hd, List.take_append_drop]
    · refine ⟨[], ?_, ?_, ?_, fun hc => absurd hc h1⟩
      · rw [chunk_loop, if_neg h1]
      · show ([] : List Char) = text.drop start
        rw [List.drop_eq_nil_of_le (by omega)]
      · show ([] : List Char) = text.drop (start + overlap)
        rw [List.drop_eq_nil_of_le (by omega)]

/-! ### Chunker claims -/

/-- A text on which `_chunk_text(text, 10, 9)` never terminates: the cut
lands at 6 (after the last space of the window) and the next start is
`max (6 - 9) 0 = 0` again, forever. -/
def c1FailText : List Char := "aaaa. ".toList ++ List.replicate 100 'b'

/-- Claim C1: for every `(size, overlap)` with `0 ≤ overlap < size`,
`_chunk_text(text, size, overlap)` terminates with at least one chunk.
This is FALSE: at `size = 10`, `overlap = 9` the loop re-enters state
`start = 0` every iteration on `c1FailText`, so no amount of fuel makes
it produce a result — the Python loop runs forever. -/
theorem chunk_text_diverges_large_overlap :
    ∀ fuel, chunk_text fuel c1FailText 10 9 = none := by
  intro fuel
  rw [chunk_text, if_neg (by decide)]
  exact chunk_loop_stuck (by decide) (by decide) fuel

/-- A second diverging input for `_chunk_text(·, 10, 9)`. -/
def c2FailText : List Char := "cccc. ".toList ++ List.replicate 50 'd'

/-- Claim C2, counterexample: at `size = 10`, `overlap = 9` (which the
claim admits, since `9 < 10`) the chunker never returns any sequence on
`c2FailText`, so in particular no returned sequence reconstructs the
input. -/
theorem chunk_text_reconstruct_cex :
    ¬ ∃ (fuel : Nat) (cs : List (List Char)),
        chunk_text fuel c2FailText 10 9 = some cs ∧ reconstruct 9 cs = c2FailText := by
  rintro ⟨fuel, cs, hcs, -⟩
  rw [chunk_text, if_neg (by decide), chunk_loop_stuck (by decide) (by decide) fuel] at hcs
  exact Option.noConfusion hcs

/-- Claim C2, amended: for `1 ≤ size` and `overlap ≤ size / 2` the
chunker terminates (fuel `text.length + 1` suffices) and concatenating
the chunks while dropping the declared `overlap`-length prefix of every
chunk after the first reconstructs the original text exactly. -/
theorem chunk_text_reconstructs (text : List Char) (size overlap : Nat)
    (hsz : 1 ≤ size) (hov : overlap ≤ size / 2) :
    ∃ cs, chunk_text (text.length + 1) text size overlap = some cs ∧
      reconstruct overlap cs = text := by
  rw [chunk_text]
  by_cases h : text.length ≤ size
  · exact ⟨[text], by rw [if_pos h], by simp [reconstruct, dropOverlaps]⟩
  · rw [if_neg h]
    obtain ⟨cs, hsome, hrec, -, -⟩ := chunk_loop_total hsz hov text.length text 0 (by omega)
    exact ⟨cs, hsome, by simpa using hrec⟩

theorem chunk_text_reconstructs_w :
    ∃ cs, chunk_text 3 "ab".toList 1 0 = some cs ∧ reconstruct 0 cs = "ab".toList :=
  chunk_text_reconstructs "ab".toList 1 0 (by decide) (by decide)

/-- In contrast to the divergence above: for `1 ≤ size` and
`overlap ≤ size / 2` the loop always terminates (fuel `text.length + 1`
suffices) and yields at least one chunk. -/
theorem chunk_text_terminates (text : List Char) (size overlap : Nat)
    (hsz : 1 ≤ size) (hov : overlap ≤ size / 2) :
    ∃ cs, chunk_text (text.length + 1) text size overlap = some cs ∧ 1 ≤ cs.length := by
  rw [chunk_text]
  by_cases h : text.length ≤ size
  · exact ⟨[text], by rw [if_pos h], by simp⟩
  · rw [if_neg h]
    obtain ⟨cs, hsome, -, -, hne⟩ := chunk_loop_total hsz hov text.length text 0 (by omega)
    have : cs ≠ [] := hne (by omega)
    exact ⟨cs, hsome, by cases cs with | nil => simp at this | cons c cs => simp⟩

theorem chunk_text_terminates_w :
    ∃ cs, chunk_text 3 "ab".toList 1 0 = some cs ∧ 1 ≤ cs.length :=
  chunk_text_terminates "ab".toList 1 0 (by decide) (by decide)

/-- Claim C3: whenever `len(text) ≤ size`, `_chunk_text` returns exactly
the single-element sequence `[text]`, for every overlap and any fuel. -/
theorem chunk_text_small (fuel : Nat) (text : List Char) (size overlap : Nat)
    (h : text.length ≤ size) : chunk_text fuel text size overlap = some [text] := by
  rw [chunk_text, if_pos h]

theorem chunk_text_small_w :
    chunk_text 0 "Hello. World.".toList 100 10 = some ["Hello. World.".toList] :=
  chunk_text_small 0 _ 100 10 (by decide)

/-! ### Claim C4: the boundary-selection policy, stated declaratively -/

/-- Spec-side notion: marker `m` occurs (lying entirely) inside the range
`[lo, hi)` of `text`. -/
def FoundIn (text m : List Char) (lo hi : Nat) : Prop :=
  ∃ i, lo ≤ i ∧ i + m.length ≤ hi ∧ matchesAt text m i = true

/-- Spec-side notion: `c` is the position immediately after the last
occurrence of marker `m` inside `[lo, hi)`. -/
def CutAfterLast (text m : List Char) (lo hi c : Nat) : Prop :=
  ∃ i, c = i + m.length ∧ lo ≤ i ∧ i + m.length ≤ hi ∧ matchesAt text m i = true ∧
    ∀ j, lo ≤ j → j + m.length ≤ hi → matchesAt text m j = true → j ≤ i

/-- The priority cascade described by the claim: for the first marker of
`ms` that occurs in `[lo, hi)` the cut is placed after its last
occurrence; if no marker occurs, after the last space in the same range;
if no space exists either, exactly at `hi`. -/
def CascadeCut (text : List Char) (lo hi c : Nat) : List (List Char) → Prop
  | [] =>
    (FoundIn text [' '] lo hi → CutAfterLast text [' '] lo hi c) ∧
    (¬ FoundIn text [' '] lo hi → c = hi)
  | m :: ms =>
    (FoundIn text m lo hi → CutAfterLast text m lo hi c) ∧
    (¬ FoundIn text m lo hi → CascadeCut text lo hi c ms)

theorem foundIn_of_rfind_some {text m : List Char} {lo hi idx : Nat}
    (h : rfind text m lo hi = some idx) : FoundIn text m lo hi :=
  ⟨idx, (rfind_some h).1, (rfind_some h).2.1, (rfind_some h).2.2.1⟩

theorem not_foundIn_of_rfind_none {text m : List Char} {lo hi : Nat}
    (h : rfind text m lo hi = none) : ¬ FoundIn text m lo hi := by
  rintro ⟨i, h1, h2, h3⟩
  rw [rfind_none h i h1 h2] at h3
  exact Bool.noConfusion h3

theorem cutAfterLast_of_rfind_some {text m : List Char} {lo hi idx : Nat}
    (h : rfind text m lo hi = some idx) : CutAfterLast text m lo hi (idx + m.length) := by
  obtain ⟨h1, h2, h3, h4⟩ := rfind_some h
  exact ⟨idx, rfl, h1, h2, h3, h4⟩

theorem cascadeCut_of_findSep_some {text : List Char} {lo hi b : Nat} :
    ∀ {ms : List (List Char)}, findSep text lo hi ms = some b → CascadeCut text lo hi b ms
  | [], h => by simp [findSep] at h
  | m :: ms, h => by
    rw [findSep] at h
    cases hr : rfind text m lo hi with
    | some idx =>
      rw [hr] at h
      cases h
      exact ⟨fun _ => cutAfterLast_of_rfind_some hr,
        fun hnf => absurd (foundIn_of_rfind_some hr) hnf⟩
    | none =>
      rw [hr] at h
      exact ⟨fun hf => absurd hf (not_foundIn_of_rfind_none hr),
        fun _ => cascadeCut_of_findSep_some h⟩

theorem cascadeCut_of_findSep_none {text : List Char} {lo hi c : Nat} :
    ∀ {ms : List (List Char)}, findSep text lo hi ms = none →
      ((FoundIn text [' '] lo hi → CutAfterLast text [' '] lo hi c) ∧
        (¬ FoundIn text [' '] lo hi → c = hi)) →
      CascadeCut text lo hi c ms
  | [], _, hbase => hbase
  | m :: ms, h, hbase => by
    rw [findSep] at h
    cases hr : rfind text m lo hi with
    | some idx =>
      rw [hr] at h
      exact Option.noConfusion h
    | none =>
      rw [hr] at h
      exact ⟨fun hf => absurd hf (not_foundIn_of_rfind_none hr),
        fun _ => cascadeCut_of_findSep_none h hbase⟩

/-- The code's cut choice satisfies the declarative cascade over the
code's own marker list `seps`. -/
theorem findBest_cascade (text : List Char) (size start : Nat) :
    CascadeCut text (start + size / 2) (start + size) (findBest text size start) seps := by
  rw [findBest]
  cases hf : findSep text (start + size / 2) (start + size) seps with
  | some b => exact cascadeCut_of_findSep_some hf
  | none =>
    dsimp only
    cases hr : rfind text [' '] (start + size / 2) (start + size) with
    | some idx =>
      dsimp only
      exact cascadeCut_of_findSep_none hf
        ⟨fun _ => cutAfterLast_of_rfind_some hr,
          fun hnf => absurd (foundIn_of_rfind_some hr) hnf⟩
    | none =>
      dsimp only
      exact cascadeCut_of_findSep_none hf
        ⟨fun hf2 => absurd hf2 (not_foundIn_of_rfind_none hr), fun _ => rfl⟩

/-- The marker list exactly as the claim words it, reading
"double-newline-after-period" literally as `".\n\n"`. -/
def claimedMarkers : List (List Char) :=
  [['.', '\n', '\n'], ['\n', '\n'], ['\n'], ['.', ' '], ['!', ' '], ['?', ' ']]

/-- Input on which the code and the literally-read claim pick different
cuts in the first window (`size = 10`): the code's first marker `".\n"`
matches at index 5 so the code cuts at 7, while the claimed cascade skips
`".\n\n"` (absent) and `"\n\n"` (absent) and must cut after the last
single newline (index 8), i.e. at 9. -/
def c4Text : List Char := "abcde.\ng\nhijk".toList

/-- Claim C4, counterexample to the marker list as literally stated: the
code's chosen cut (7) does not satisfy the claimed cascade with first
marker `".\n\n"` on `c4Text`. -/
theorem chunk_cut_policy_cex :
    findBest c4Text 10 0 = 7 ∧
    ¬ CascadeCut c4Text (0 + 10 / 2) (0 + 10) (findBest c4Text 10 0) claimedMarkers := by
  have h7 : findBest c4Text 10 0 = 7 := by decide
  refine ⟨h7, ?_⟩
  rw [h7]
  intro hc
  simp only [claimedMarkers, CascadeCut] at hc
  have hn1 : ¬ FoundIn c4Text ['.', '\n', '\n'] (0 + 10 / 2) (0 + 10) := by
    rintro ⟨i, h1, h2, h3⟩
    have h1' : 5 ≤ i := h1
    have h2' : i ≤ 7 := by
      have := h2
      simp only [List.length] at this
      omega
    interval_cases i <;> exact absurd h3 (by decide)
  have hn2 : ¬ FoundIn c4Text ['\n', '\n'] (0 + 10 / 2) (0 + 10) := by
    rintro ⟨i, h1, h2, h3⟩
    have h1' : 5 ≤ i := h1
    have h2' : i ≤ 8 := by
      have := h2
      simp only [List.length] at this
      omega
    interval_cases i <;> exact absurd h3 (by decide)
  have hf3 : FoundIn c4Text ['\n'] (0 + 10 / 2) (0 + 10) :=
    ⟨8, by decide, by decide, by decide⟩
  obtain ⟨i, hi7, -, -, -, hlast⟩ := ((hc.2 hn1).2 hn2).1 hf3
  have h8 : (8 : Nat) ≤ i := hlast 8 (by decide) (by decide) (by decide)
  simp only [List.length] at hi7
  omega

/-- Claim C4, amended (the first marker is a period followed by a single
newline, `".\n"`, and a marker "occurs in the range" when the occurrence
lies entirely inside it): within every non-final window the cut position
`best = findBest text size start` satisfies the priority cascade over
`".\n", "\n\n", "\n", ". ", "! ", "? "` on `[start + size/2, start + size)`
with last-space and cut-at-`start + size` fallbacks; the emitted chunk is
`text[start : best]` and the next window starts at `best - overlap`
clamped to zero. -/
theorem chunk_step_policy (text : List Char) (size overlap start fuel : Nat)
    (h : start + size < text.length) :
    CascadeCut text (start + size / 2) (start + size) (findBest text size start) seps ∧
    chunk_loop text size overlap (fuel + 1) start =
      match chunk_loop text size overlap fuel
          (((findBest text size start : Int) - (overlap : Int)).toNat) with
      | some rest => some ((text.drop start).take (findBest text size start - start) :: rest)
      | none => none := by
  refine ⟨findBest_cascade text size start, ?_⟩
  rw [chunk_loop, if_pos (by omega), if_neg (by omega)]

theorem chunk_step_policy_w :
    CascadeCut "abcdef".toList (0 + 3 / 2) (0 + 3) (findBest "abcdef".toList 3 0) seps :=
  (chunk_step_policy "abcdef".toList 3 0 0 0 (by decide)).1

/-! ### SHA-256 (the `hashlib.sha256` collaborator), over byte lists

32-bit words are `Nat`s kept below `2^32` by explicit `% 2^32`
reductions. -/

def M32 : Nat := 4294967296

/-- Right-rotation of a 32-bit word. -/
def rotateR32 (n x : Nat) : Nat := ((x >>> n) ||| (x <<< (32 - n))) % M32

def bigSigma0 (x : Nat) : Nat := (rotateR32 2 x) ^^^ (rotateR32 13 x) ^^^ (rotateR32 22 x)

def bigSigma1 (x : Nat) : Nat := (rotateR32 6 x) ^^^ (rotateR32 11 x) ^^^ (rotateR32 25 x)

def smallSigma0 (x : Nat) : Nat := (rotateR32 7 x) ^^^ (rotateR32 18 x) ^^^ (x >>> 3)

def smallSigma1 (x : Nat) : Nat := (rotateR32 17 x) ^^^ (rotateR32 19 x) ^^^ (x >>> 10)

/-- The 64 SHA-256 round constants (FIPS 180-4), written in decimal. -/
def kConst : List Nat :=
  [1116352408, 1899447441, 3049323471, 3921009573, 961987163,
   1508970993, 2453635748, 2870763221, 3624381080, 310598401,
   607225278, 1426881987, 1925078388, 2162078206, 2614888103,
   3248222580, 3835390401, 4022224774, 264347078, 604807628,
   770255983, 1249150122, 1555081692, 1996064986, 2554220882,
   2821834349, 2952996808, 3210313671, 3336571891, 3584528711,
   113926993, 338241895, 666307205, 773529912, 1294757372,
   1396182291, 1695183700, 1986661051, 2177026350, 2456956037,
   2730485921, 2820302411, 3259730800, 3345764771, 3516065817,
   3600352804, 4094571909, 275423344, 430227734, 506948616,
   659060556, 883997877, 958139571, 1322822218, 1537002063,
   1747873779, 1955562222, 2024104815, 2227730452, 2361852424,
   2428436474, 2756734187, 3204031479, 3329325298]

/-- The working state: eight 32-bit hash words. -/
structure Hash8 where
  a : Nat
  b : Nat
  c : Nat
  d : Nat
  e : Nat
  f : Nat
  g : Nat
  h : Nat

/-- Initial hash value of SHA-256 (FIPS 180-4), written in decimal. -/
def initHash : Hash8 :=
  ⟨1779033703, 3144134277, 1013904242, 2773480762,
   1359893119, 2600822924, 528734635, 1541459225⟩

/-- One compression round. -/
def sha256Round (s : Hash8) (k w : Nat) : Hash8 :=
  let ch := (s.e &&& s.f) ^^^ ((s.e ^^^ (M32 - 1)) &&& s.g)
  let maj := (s.a &&& s.b) ^^^ (s.a &&& s.c) ^^^ (s.b &&& s.c)
  let t1 := (s.h + bigSigma1 s.e + ch + k + w) % M32
  let t2 := (bigSigma0 s.a + maj) % M32
  ⟨(t1 + t2) % M32, s.a, s.b, s.c, (s.d + t1) % M32, s.e, s.f, s.g⟩

/-- Extend the 16 block words by `n` further schedule words. -/
def extendSchedule : List Nat → Nat → List Nat
  | ws, 0 => ws
  | ws, n + 1 =>
    extendSchedule
      (ws ++ [(smallSigma1 (ws.getD (ws.length - 2) 0) + ws.getD (ws.length - 7) 0 +
               smallSigma0 (ws.getD (ws.length - 15) 0) + ws.getD (ws.length - 16) 0) % M32])
      n

/-- Compress one 16-word block into the running hash. -/
def sha256Compress (s : Hash8) (block : List Nat) : Hash8 :=
  let ws := extendSchedule block 48
  let t := (kConst.zip ws).foldl (fun st kw => sha256Round st kw.1 kw.2) s
  ⟨(s.a + t.a) % M32, (s.b + t.b) % M32, (s.c + t.c) % M32, (s.d + t.d) % M32,
   (s.e + t.e) % M32, (s.f + t.f) % M32, (s.g + t.g) % M32, (s.h + t.h) % M32⟩

/-- Big-endian bytes of the 64-bit message bit length. -/
def lengthBytes (n : Nat) : List Nat :=
  [(n >>> 56) % 256, (n >>> 48) % 256, (n >>> 40) % 256, (n >>> 32) % 256,
   (n >>> 24) % 256, (n >>> 16) % 256, (n >>> 8) % 256, n % 256]

/-- SHA-256 padding: `0x80`, zeros to 56 mod 64, then the bit length. -/
def padMessage (msg : List Nat) : List Nat :=
  msg ++ [0x80] ++ List.replicate ((119 - msg.length % 64) % 64) 0 ++
    lengthBytes (8 * msg.length)

/-- Split the padded byte string into 64-byte blocks. -/
def toBlocks (bs : List Nat) : List (List Nat) :=
  if h : bs = [] then []
  else bs.take 64 :: toBlocks (bs.drop 64)
termination_by bs.length
decreasing_by
  simp only [List.length_drop]
  have : 0 < bs.length := List.length_pos.mpr h
  omega

/-- Big-endian 32-bit words of a byte list. -/
def bytesToWords : List Nat → List Nat
  | b0 :: b1 :: b2 :: b3 :: rest =>
    (((b0 * 256 + b1) * 256 + b2) * 256 + b3) :: bytesToWords rest
  | _ => []

/-- Big-endian bytes of one 32-bit word. -/
def wordBytes (w : Nat) : List Nat :=
  [(w >>> 24) % 256, (w >>> 16) % 256, (w >>> 8) % 256, w % 256]

/-- SHA-256 digest (32 bytes) of a byte list. -/
def sha256 (msg : List Nat) : List Nat :=
  let t := (toBlocks (padMessage msg)).foldl
    (fun st block => sha256Compress st (bytesToWords block)) initHash
  wordBytes t.a ++ wordBytes t.b ++ wordBytes t.c ++ wordBytes t.d ++
    wordBytes t.e ++ wordBytes t.f ++ wordBytes t.g ++ wordBytes t.h

/-! ### The content addressers `_make_chunk_id` / `_memory_id` -/

/-- Lowercase hex digit. -/
def hexDigit (n : Nat) : Char :=
  if n < 10 then Char.ofNat (48 + n) else Char.ofNat (87 + n)

/-- Lowercase hex string of a byte list (Python `hexdigest()`). -/
def bytesToHex (bs : List Nat) : List Char :=
  bs.foldr (fun b acc => hexDigit (b / 16) :: hexDigit (b % 16) :: acc) []

/-- UTF-8 bytes of a string (Python `str.encode()`). -/
def strBytes (s : String) : List Nat :=
  s.toUTF8.toList.map (fun b => b.toNat)

/-- Function `_make_chunk_id(source, idx)` (knowledge.py lines 65-68):
`"kb_" + sha256(f"{source}:{idx}".encode()).hexdigest()[:16]`. -/
def make_chunk_id (source : String) (idx : Nat) : String :=
  "kb_" ++ String.mk ((bytesToHex (sha256 (strBytes (source ++ ":" ++ Nat.repr idx)))).take 16)

/-- Function `_memory_id(text)` (memory.py lines 27-30):
`"mem_" + sha256(text.encode()).hexdigest()[:16]`. -/
def memory_id (text : String) : String :=
  "mem_" ++ String.mk ((bytesToHex (sha256 (strBytes text))).take 16)

/-- A SHA-256 digest always has 32 bytes. -/
theorem sha256_length (msg : List Nat) : (sha256 msg).length = 32 := by
  simp [sha256, wordBytes]

theorem bytesToHex_length (bs : List Nat) : (bytesToHex bs).length = 2 * bs.length := by
  induction bs with
  | nil => rfl
  | cons b bs ih =>
    simp only [bytesToHex, List.foldr] at ih ⊢
    simp only [List.length_cons, ih, List.length]
    omega

/-- Claim C5: the identifier functions are pure functions of exactly
their inputs — identical arguments always give identical identifiers
(no time, randomness or process state can enter: the embedded functions
take nothing else) — and `_make_chunk_id(source, idx)` is the knowledge
tag `"kb_"` followed by the first 16 hex digits of the SHA-256 of
`"{source}:{idx}"`, while `_memory_id(text)` is the memory tag `"mem_"`
followed by the first 16 hex digits of the SHA-256 of the exact text
bytes; both ids have fixed width (19 and 20 characters). -/
theorem id_functions_deterministic (source source' : String) (idx idx' : Nat)
    (text text' : String) (hs : source = source') (hi : idx = idx') (ht : text = text') :
    make_chunk_id source idx = make_chunk_id source' idx' ∧
    memory_id text = memory_id text' ∧
    make_chunk_id source idx =
      "kb_" ++ String.mk
        ((bytesToHex (sha256 (strBytes (source ++ ":" ++ Nat.repr idx)))).take 16) ∧
    memory_id text = "mem_" ++ String.mk ((bytesToHex (sha256 (strBytes text))).take 16) ∧
    (make_chunk_id source idx).length = 19 ∧
    (memory_id text).length = 20 := by
  subst hs
  subst hi
  subst ht
  refine ⟨rfl, rfl, rfl, rfl, ?_, ?_⟩
  · rw [make_chunk_id, String.length_append, String.length_mk]
    simp [List.length_take, bytesToHex_length, sha256_length]
  · rw [memory_id, String.length_append, String.length_mk]
    simp [List.length_take, bytesToHex_length, sha256_length]

theorem id_functions_deterministic_w :
    make_chunk_id "doc" 0 = make_chunk_id "doc" 0 ∧
    memory_id "note" = memory_id "note" ∧
    make_chunk_id "doc" 0 =
      "kb_" ++ String.mk
        ((bytesToHex (sha256 (strBytes ("doc" ++ ":" ++ Nat.repr 0)))).take 16) ∧
    memory_id "note" = "mem_" ++ String.mk ((bytesToHex (sha256 (strBytes "note"))).take 16) ∧
    (make_chunk_id "doc" 0).length = 19 ∧
    (memory_id "note").length = 20 :=
  id_functions_deterministic "doc" "doc" 0 0 "note" "note" rfl rfl rfl

/-! ### The zvec collection, modelled at its interface boundary -/

/-- A stored memory document (the `fields` of memory.py's schema) plus
its embedding.  Vector values are opaque to every claim, so the vector
type is a parameter. -/
structure MemDoc (V : Type) where
  text : String
  category : String
  created_at : Nat
  embedding : V
deriving DecidableEq

/-- zvec `Collection.upsert` for one document: overwrite-by-id when the
id is present, append otherwise. -/
def upsertDoc {α : Type} (docs : List (String × α)) (i : String) (d : α) :
    List (String × α) :=
  if docs.any (fun p => p.1 == i) then
    docs.map (fun p => if p.1 == i then (i, d) else p)
  else docs ++ [(i, d)]

/-- Engine-side lookup by document id. -/
def lookupDoc {α : Type} (docs : List (String × α)) (i : String) : Option α :=
  (docs.find? (fun p => p.1 == i)).map (fun p => p.2)

theorem upsertDoc_length_of_any {α : Type} (docs : List (String × α)) (i : String) (d : α)
    (h : docs.any (fun p => p.1 == i) = true) :
    (upsertDoc docs i d).length = docs.length := by
  rw [upsertDoc, if_pos h, List.length_map]

theorem upsertDoc_any {α : Type} (docs : List (String × α)) (i : String) (d : α) :
    (upsertDoc docs i d).any (fun p => p.1 == i) = true := by
  rw [upsertDoc]
  by_cases h : docs.any (fun p => p.1 == i) = true
  · rw [if_pos h]
    obtain ⟨p, hp, hpi⟩ := List.any_eq_true.mp h
    exact List.any_eq_true.mpr
      ⟨(i, d), List.mem_map.mpr ⟨p, hp, by rw [if_pos hpi]⟩, by simp⟩
  · rw [if_neg h, List.any_append]
    simp

theorem find?_overwrite {α : Type} (i : String) (d : α) :
    ∀ (docs : List (String × α)), docs.any (fun p => p.1 == i) = true →
      (docs.map (fun p => if p.1 == i then (i, d) else p)).find? (fun p => p.1 == i) =
        some (i, d)
  | [], h => by simp at h
  | q :: qs, h => by
    by_cases hq : (q.1 == i) = true
    · simp only [List.map_cons, if_pos hq]
      exact List.find?_cons_of_pos _ (by simp)
    · simp only [List.map_cons, if_neg hq]
      rw [List.find?_cons_of_neg _ (by simpa using hq)]
      refine find?_overwrite i d qs ?_
      rcases List.any_eq_true.mp h with ⟨p, hp, hpi⟩
      rcases List.mem_cons.mp hp with rfl | hmem
      · exact absurd hpi hq
      · exact List.any_eq_true.mpr ⟨p, hmem, hpi⟩

/-- After an upsert, looking the id up yields exactly the new document. -/
theorem lookupDoc_upsertDoc {α : Type} (docs : List (String × α)) (i : String) (d : α) :
    lookupDoc (upsertDoc docs i d) i = some d := by
  rw [upsertDoc]
  by_cases h : docs.any (fun p => p.1 == i) = true
  · rw [if_pos h, lookupDoc, find?_overwrite i d docs h]
    rfl
  · rw [if_neg h, lookupDoc, List.find?_append]
    have h1 : docs.find? (fun p => p.1 == i) = none :=
      List.find?_eq_none.mpr (fun x hx hpx =>
        h (List.any_eq_true.mpr ⟨x, hx, hpx⟩))
    rw [h1]
    simp

/-- Method `MemoryStore.remember` (memory.py lines 84-104): compute the
content-addressed id, embed the text, upsert one document with fresh
`category`/`created_at`; returns the id.  `now` models
`int(time.time())`. -/
def remember {V : Type} (docs : List (String × MemDoc V)) (emb : String → V)
    (text category : String) (now : Nat) : String × List (String × MemDoc V) :=
  (memory_id text, upsertDoc docs (memory_id text) ⟨text, category, now, emb text⟩)

/-- Claim C6: remembering the same text twice returns the same id both
times, and the second call overwrites rather than appends — the doc
count does not increase — refreshing only `category` and `created_at`:
the document stored under that id after the second call keeps the text
and embedding and carries the second call's category and timestamp. -/
theorem remember_idempotent {V : Type} (docs : List (String × MemDoc V)) (emb : String → V)
    (text cat1 cat2 : String) (t1 t2 : Nat) :
    (remember docs emb text cat1 t1).1 =
      (remember (remember docs emb text cat1 t1).2 emb text cat2 t2).1 ∧
    (remember (remember docs emb text cat1 t1).2 emb text cat2 t2).2.length =
      (remember docs emb text cat1 t1).2.length ∧
    lookupDoc (remember (remember docs emb text cat1 t1).2 emb text cat2 t2).2
      (remember docs emb text cat1 t1).1 = some ⟨text, cat2, t2, emb text⟩ := by
  refine ⟨rfl, ?_, ?_⟩
  · exact upsertDoc_length_of_any _ _ _
      (upsertDoc_any docs (memory_id text) ⟨text, cat1, t1, emb text⟩)
  · exact lookupDoc_upsertDoc _ _ _

/-- Python truthiness of a `str | None` value: `None` and `""` are
falsy, every other string is truthy. -/
def pyTruthy : Option String → Bool
  | none => false
  | some s => !(s == "")

/-- The zvec engine's query, modelled at the interface boundary: apply
the optional category equality filter, rank the candidates by the
engine's similarity order (abstracted as `rank`, which may only select
and reorder among its candidates), and return the first `topk`.  Scores
are engine-internal and omitted from the model. -/
def engineQuery {V : Type} (docs : List (String × MemDoc V))
    (rank : List (String × MemDoc V) → List (String × MemDoc V))
    (filt : Option String) (topk : Nat) : List (String × MemDoc V) :=
  (rank (docs.filter (fun p =>
    match filt with
    | none => true
    | some c => p.2.category == c))).take topk

/-- Method `MemoryStore.recall` (memory.py lines 106-134): the filter string
`"category = '{category}'"` is built only when `category` is truthy
(`if category` in Python: non-`None` and non-empty), otherwise no filter
is passed to the engine. -/
def recallMem {V : Type} (docs : List (String × MemDoc V))
    (rank : List (String × MemDoc V) → List (String × MemDoc V))
    (query : String) (topk : Nat) (category : Option String) :
    List (String × MemDoc V) :=
  engineQuery docs rank (if pyTruthy category then category else none) topk

/-- Claim C8, amended to non-empty category strings: for every non-empty
`X` and any engine ranking that only selects among its candidates,
`recall` never returns an entry whose stored category differs from `X`
— the equality filter narrows the candidates before ranking. -/
theorem recall_respects_category {V : Type} (docs : List (String × MemDoc V))
    (rank : List (String × MemDoc V) → List (String × MemDoc V))
    (hrank : ∀ l x, x ∈ rank l → x ∈ l) (query : String) (topk : Nat) (X : String)
    (hX : X ≠ "") :
    (recallMem docs rank query topk (some X)).all (fun p => p.2.category == X) = true := by
  rw [List.all_eq_true]
  intro p hp
  rw [recallMem] at hp
  have ht : pyTruthy (some X) = true := by
    simp [pyTruthy, hX]
  rw [if_pos ht, engineQuery] at hp
  have hp2 := hrank _ _ (List.mem_of_mem_take hp)
  exact (List.mem_filter.mp hp2).2

/-- A memory store holding one entry of category `"a"`. -/
def c8docs : List (String × MemDoc Nat) := [("m1", ⟨"fact", "a", 0, 0⟩)]

theorem recall_respects_category_w :
    (recallMem c8docs (fun l => l) "q" 5 (some "a")).all
      (fun p => p.2.category == "a") = true :=
  recall_respects_category c8docs (fun l => l) (fun _ _ hx => hx) "q" 5 "a" (by decide)

/-- Claim C8, counterexample: the claim quantifies over every category
string, but with `X = ""` Python's truthiness drops the filter entirely,
so `recall` returns the `"a"`-categorised entry of `c8docs`, whose
stored category differs from `""`. -/
theorem recall_category_cex :
    (recallMem c8docs (fun l => l) "q" 5 (some "")).map (fun p => p.2.category) = ["a"] ∧
    ("a" : String) ≠ "" := by
  exact ⟨by decide, by decide⟩

/-- Method `MemoryStore.forget_category` (memory.py lines 144-147):
`delete_by_filter("category = '{category}'")` — the filter string is
always built, with no truthiness check, and the engine removes exactly
the matching documents. -/
def forget_category {V : Type} (docs : List (String × MemDoc V)) (category : String) :
    List (String × MemDoc V) :=
  docs.filter (fun p => !(p.2.category == category))

/-- Store used to exhibit claim C10's contrast concretely. -/
def c10docs : List (String × MemDoc Nat) :=
  [("m1", ⟨"t1", "", 0, 0⟩), ("m2", ⟨"t2", "a", 0, 0⟩)]

/-- Claim C10: `recall` with the empty-string category applies no filter
at all — it equals `recall` with `category = None` on every store, and
entries of any stored category may be returned (on `c10docs` it returns
both the `""`- and the `"a"`-categorised entries) — whereas
`forget_category("")` does build and apply the equality filter on the
empty string (on `c10docs` it deletes exactly the `""`-categorised
entry). -/
theorem recall_empty_category_unfiltered :
    (∀ (V : Type) (docs : List (String × MemDoc V))
      (rank : List (String × MemDoc V) → List (String × MemDoc V))
      (query : String) (topk : Nat),
      recallMem docs rank query topk (some "") = recallMem docs rank query topk none) ∧
    (recallMem c10docs (fun l => l) "q" 5 (some "")).map (fun p => p.2.category) = ["", "a"] ∧
    forget_category c10docs "" = [("m2", ⟨"t2", "a", 0, 0⟩)] := by
  exact ⟨fun V docs rank query topk => rfl, by decide, by decide⟩

/-- zvec `Collection.delete(id)`, modelled at the interface boundary:
remove the documents carrying the id; the returned status's `ok()`
reports whether a matching document existed. -/
def engineDelete {V : Type} (docs : List (String × MemDoc V)) (i : String) :
    List (String × MemDoc V) × Bool :=
  (docs.filter (fun p => !(p.1 == i)), docs.any (fun p => p.1 == i))

/-- Method `MemoryStore.forget` (memory.py lines 136-142): delegate to the
engine's delete and return the status's `ok()` boolean (the
`hasattr(status, "ok")` guard is modelled as the status always carrying
`ok`). -/
def forget {V : Type} (docs : List (String × MemDoc V)) (i : String) :
    Bool × List (String × MemDoc V) :=
  ((engineDelete docs i).2, (engineDelete docs i).1)

/-- The `memory_forget` tool response (server.py lines 179-188). -/
inductive ForgetResp where
  | ok (memoryId : String)
  | notFound (memoryId : String)
deriving DecidableEq

/-- Tool `memory_forget(memory_id)` (server.py lines 179-188): map `forget`'s
boolean to `{"status": "ok" | "not_found", "memory_id": id}`. -/
def memory_forget_tool {V : Type} (docs : List (String × MemDoc V)) (i : String) :
    ForgetResp × List (String × MemDoc V) :=
  (if (forget docs i).1 then ForgetResp.ok i else ForgetResp.notFound i,
   (forget docs i).2)

/-- Claim C9: `forget` returns `true` exactly when an entry with the
given id existed, and afterwards no entry with that id remains (it was
deleted); forgetting a non-existent id is not an error — it returns
`false` and the tool maps the outcome to the `not_found` response
instead of failing. -/
theorem forget_reports_existence {V : Type} (docs : List (String × MemDoc V)) (i : String) :
    ((forget docs i).1 = true ↔ ∃ d, (i, d) ∈ docs) ∧
    (forget docs i).2.any (fun p => p.1 == i) = false ∧
    memory_forget_tool docs i =
      (if docs.any (fun p => p.1 == i) then ForgetResp.ok i else ForgetResp.notFound i,
        docs.filter (fun p => !(p.1 == i))) := by
  refine ⟨?_, ?_, rfl⟩
  · show docs.any (fun p => p.1 == i) = true ↔ ∃ d, (i, d) ∈ docs
    rw [List.any_eq_true]
    constructor
    · rintro ⟨⟨pid, pd⟩, hp, hpi⟩
      have : pid = i := by simpa using hpi
      subst this
      exact ⟨pd, hp⟩
    · rintro ⟨d, hd⟩
      exact ⟨(i, d), hd, by simp⟩
  · show (docs.filter (fun p => !(p.1 == i))).any (fun p => p.1 == i) = false
    rw [Bool.eq_false_iff]
    intro hcon
    obtain ⟨p, hp, hpi⟩ := List.any_eq_true.mp hcon
    have hneg := (List.mem_filter.mp hp).2
    rw [hpi] at hneg
    exact Bool.noConfusion hneg

/-! ### The knowledge base ingest pipeline and its tool boundary -/

/-- A stored knowledge chunk (the `fields` of knowledge.py's schema)
plus its embedding. -/
structure KChunk (V : Type) where
  source : String
  chunk_idx : Nat
  text : List Char
  created_at : Nat
  embedding : V
deriving DecidableEq

/-- Default `Config.chunk_size` (config.py line 55). -/
def defaultChunkSize : Nat := 512

/-- Default `Config.chunk_overlap` (config.py line 58). -/
def defaultChunkOverlap : Nat := 64

/-- Method `KnowledgeBase.ingest` (knowledge.py lines 124-156): chunk the text,
embed each chunk, and upsert one document per chunk keyed by the
deterministic chunk ids; returns the number of chunks stored.  `none`
models divergence of the chunking loop (ruled out at the default
configuration by `chunk_loop_total`). -/
def ingest {V : Type} (kb : List (String × KChunk V)) (emb : List Char → V)
    (text : List Char) (source : String) (now : Nat) :
    Option (Nat × List (String × KChunk V)) :=
  (chunk_text (text.length + 1) text defaultChunkSize defaultChunkOverlap).map
    (fun chunks =>
      (chunks.length,
        chunks.enum.foldl
          (fun acc p =>
            upsertDoc acc (make_chunk_id source p.1) ⟨source, p.1, p.2, now, emb p.2⟩)
          kb))

/-- Method `KnowledgeBase.ingest_file` (knowledge.py lines 158-164): raise
`FileNotFoundError` when the path does not resolve to an existing
regular file, else read the file and ingest its contents.  The
filesystem is modelled as a map from (resolved) paths to the text of
the regular file there, if any. -/
def ingest_file {V : Type} (fs : String → Option (List Char))
    (kb : List (String × KChunk V)) (emb : List Char → V) (path : String) (now : Nat) :
    Except String (Option (Nat × List (String × KChunk V))) :=
  match fs path with
  | none => Except.error ("File not found: " ++ path)
  | some content => Except.ok (ingest kb emb content path now)

/-- The `knowledge_ingest_file` tool response (server.py lines 87-101). -/
inductive IngestResp where
  | ok (chunksStored : Nat) (source : String)
  | error (message : String)
deriving DecidableEq

/-- Tool `knowledge_ingest_file(path)` (server.py lines 87-101): recover the
`FileNotFoundError` of `ingest_file` at the tool boundary into a
structured `{"status":"error","message":…}` response; on success return
`{"status":"ok","chunks_stored":n,"source":path}`. -/
def knowledge_ingest_file_tool {V : Type} (fs : String → Option (List Char))
    (kb : List (String × KChunk V)) (emb : List Char → V) (path : String) (now : Nat) :
    Option (IngestResp × List (String × KChunk V)) :=
  match ingest_file fs kb emb path now with
  | Except.error msg => some (IngestResp.error msg, kb)
  | Except.ok none => none
  | Except.ok (some (n, kb')) => some (IngestResp.ok n path, kb')

/-- Claim C7: when the path does not resolve to a regular file, the tool
returns the structured error response and the store is unchanged (no
documents are stored); when it does resolve, the tool returns the ok
response carrying the number of chunks of the file's contents (chunking
always terminates at the default configuration). -/
theorem ingest_file_tool_boundary {V : Type} (fs : String → Option (List Char))
    (kb : List (String × KChunk V)) (emb : List Char → V) (path : String) (now : Nat) :
    (fs path = none →
      knowledge_ingest_file_tool fs kb emb path now =
        some (IngestResp.error ("File not found: " ++ path), kb)) ∧
    (∀ content, fs path = some content →
      ∃ chunks kb',
        chunk_text (content.length + 1) content defaultChunkSize defaultChunkOverlap =
          some chunks ∧
        knowledge_ingest_file_tool fs kb emb path now =
          some (IngestResp.ok chunks.length path, kb')) := by
  constructor
  · intro h
    rw [knowledge_ingest_file_tool, ingest_file, h]
  · intro content h
    obtain ⟨chunks, hsome, -⟩ :=
      chunk_text_terminates content defaultChunkSize defaultChunkOverlap
        (by decide) (by decide)
    refine ⟨chunks,
      chunks.enum.foldl
        (fun acc p =>
          upsertDoc acc (make_chunk_id path p.1) ⟨path, p.1, p.2, now, emb p.2⟩) kb,
      hsome, ?_⟩
    simp only [knowledge_ingest_file_tool, ingest_file, h, ingest, hsome, Option.map_some']

/-- An empty filesystem: no path resolves to a regular file. -/
def emptyFs : String → Option (List Char) := fun _ => none

theorem ingest_file_tool_boundary_w :
    knowledge_ingest_file_tool emptyFs ([] : List (String × KChunk Nat))
        (fun _ => 0) "/nonexistent" 0 =
      some (IngestResp.error ("File not found: " ++ "/nonexistent"), []) :=
  (ingest_file_tool_boundary emptyFs [] (fun _ => 0) "/nonexistent" 0).1 rfl

end ZvecMcp
